import Mathlib

/-!
Verification development for flightlog_submit.py.

We give a shallow embedding of the program's core logic — IGC header and
position-record parsing, timestamp derivation, content-based file
deduplication, and the submission reconciliation loop — and prove theorems
checking the natural-language specification's claims against the embedded
code.  Lines of text are modelled as `List Char`; Python exceptions are
modelled by the `Except` monad with an explicit error type.
-/

namespace FlightlogSubmit

/-- Python exception values raised by the modelled code paths. -/
inductive PyErr where
  | valueError : String → PyErr
  | unboundLocal : String → PyErr
  deriving DecidableEq, Repr

/-- Whitespace characters removed by Python `str.strip()`. -/
def pyIsSpace (c : Char) : Bool :=
  c == ' ' || c == '\t' || c == '\n' || c == '\r' || c == '\x0b' || c == '\x0c'

/-- Python `str.strip()`: drop whitespace from both ends of a line. -/
def pyStrip (l : List Char) : List Char :=
  ((l.dropWhile pyIsSpace).reverse.dropWhile pyIsSpace).reverse

/-- Python slice `l[a:b]` (for `0 ≤ a ≤ b`). -/
def pySlice (l : List Char) (a b : Nat) : List Char := (l.drop a).take (b - a)

/-- Numeric value of a string of ASCII digits. -/
def digitsToNat (l : List Char) : Nat := l.foldl (fun n c => 10 * n + (c.toNat - 48)) 0

/-- Python `int(str)`: optional surrounding whitespace, an optional single
sign, then a nonempty run of digits; anything else raises `ValueError`.
(ASCII digits only; the rarely relevant unicode-digit and underscore
forms are not modelled.) -/
def pyInt (l : List Char) : Except PyErr Int :=
  let s := pyStrip l
  match s with
  | '+' :: rest =>
    if !rest.isEmpty && rest.all Char.isDigit then .ok (digitsToNat rest : Nat)
    else .error (.valueError "invalid literal for int")
  | '-' :: rest =>
    if !rest.isEmpty && rest.all Char.isDigit then .ok (-(digitsToNat rest : Nat) : Int)
    else .error (.valueError "invalid literal for int")
  | _ =>
    if !s.isEmpty && s.all Char.isDigit then .ok (digitsToNat s : Nat)
    else .error (.valueError "invalid literal for int")

/-- A `datetime.datetime` value (already validated by the constructor). -/
structure DateTime where
  year : Int
  month : Int
  day : Int
  hour : Int
  minute : Int
  second : Int
  deriving DecidableEq, Repr

/-- Gregorian leap-year rule, as used by `datetime`. -/
def isLeapYear (y : Int) : Bool := y % 4 == 0 && (y % 100 != 0 || y % 400 == 0)

def daysInMonth (y m : Int) : Int :=
  if m = 2 then (if isLeapYear y then 29 else 28)
  else if m = 4 ∨ m = 6 ∨ m = 9 ∨ m = 11 then 30
  else 31

/-- The `datetime.datetime(year, month, day, hour, minute, second)`
constructor: validates each field in argument order and raises
`ValueError` on the first field out of range. -/
def pyDatetime (y m d h mi s : Int) : Except PyErr DateTime :=
  if y < 1 ∨ 9999 < y then .error (.valueError "year is out of range")
  else if m < 1 ∨ 12 < m then .error (.valueError "month must be in 1..12")
  else if d < 1 ∨ daysInMonth y m < d then .error (.valueError "day is out of range for month")
  else if h < 0 ∨ 23 < h then .error (.valueError "hour must be in 0..23")
  else if mi < 0 ∨ 59 < mi then .error (.valueError "minute must be in 0..59")
  else if s < 0 ∨ 59 < s then .error (.valueError "second must be in 0..59")
  else .ok ⟨y, m, d, h, mi, s⟩

/-- Zero-pad a nonnegative integer to two digits (strftime `%m`/`%d`/`%H`/`%M`). -/
def pad2 (n : Int) : String := if n < 10 then "0" ++ toString n else toString n

/-- Zero-pad a nonnegative integer to four digits (strftime `%Y`; all years
reachable through `datetime_from_igc` in this program are `2000 + nn`). -/
def pad4 (n : Int) : String :=
  if n < 10 then "000" ++ toString n
  else if n < 100 then "00" ++ toString n
  else if n < 1000 then "0" ++ toString n
  else toString n

/-- `Tracklog.date_string`: `self.date.strftime('%Y-%m-%d %H:%M')`. -/
def DateTime.date_string (dt : DateTime) : String :=
  pad4 dt.year ++ "-" ++ pad2 dt.month ++ "-" ++ pad2 dt.day ++ " " ++
    pad2 dt.hour ++ ":" ++ pad2 dt.minute

def hfdteP : List Char := "HFDTE".toList

def hftznP : List Char := "HFTZNTIMEZONE".toList

/-- State of the line loop inside `datetime_from_igc`: the date variables
(`day`, `month`, `year`, bound together by the tuple assignment, `none`
while still unbound) and `timezone_offset` (initialised to `0`). -/
structure ScanState where
  dmy : Option (Int × Int × Int)
  tz : Int
  deriving DecidableEq, Repr

/-- The `for line in file` loop of `datetime_from_igc`.  Each line is
stripped; a `HFDTE` line rebinds the date variables (day `line[5:7]`,
month `line[7:9]`, year `2000 + int(line[9:])`); a `HFTZNTIMEZONE` line
rebinds the offset to `int(line[14:])`; the first `B` line binds
hour/minute/second from `line[1:3]`, `line[3:5]`, `line[5:7]`, adds the
offset to the hour, and breaks.  Returns the final state together with
the bound `(hour, minute, second)` if a `B` line was reached. -/
def scanIGC : ScanState → List (List Char) → Except PyErr (ScanState × Option (Int × Int × Int))
  | st, [] => .ok (st, none)
  | st, line :: rest =>
    let l := pyStrip line
    if hfdteP.isPrefixOf l then
      match pyInt (pySlice l 5 7), pyInt (pySlice l 7 9), pyInt (l.drop 9) with
      | .ok d, .ok m, .ok y => scanIGC ⟨some (d, m, y + 2000), st.tz⟩ rest
      | .error e, _, _ => .error e
      | .ok _, .error e, _ => .error e
      | .ok _, .ok _, .error e => .error e
    else if hftznP.isPrefixOf l then
      match pyInt (l.drop 14) with
      | .ok t => scanIGC ⟨st.dmy, t⟩ rest
      | .error e => .error e
    else if l.take 1 = ['B'] then
      match pyInt (pySlice l 1 3), pyInt (pySlice l 3 5), pyInt (pySlice l 5 7) with
      | .ok h, .ok mi, .ok s => .ok (st, some (h + st.tz, mi, s))
      | .error e, _, _ => .error e
      | .ok _, .error e, _ => .error e
      | .ok _, .ok _, .error e => .error e
    else scanIGC st rest

/-- `datetime_from_igc`: run the line loop, then evaluate
`datetime(year, month, day, hour, minute, second)`.  Referencing a name
never bound by the loop raises `UnboundLocalError` (`year` is referenced
first, then `hour`); otherwise the constructor validates the fields. -/
def datetime_from_igc (lines : List (List Char)) : Except PyErr DateTime :=
  match scanIGC ⟨none, 0⟩ lines with
  | .error e => .error e
  | .ok (st, hms) =>
    match st.dmy, hms with
    | none, _ => .error (.unboundLocal "year")
    | some _, none => .error (.unboundLocal "hour")
    | some (d, m, y), some (hh, mi, ss) => pyDatetime y m d hh mi ss

/-- The file of specification Scenario A. -/
def scenarioA : List (List Char) :=
  ["HFDTE230702".toList, "HFTZNTIMEZONE+2".toList,
   "B1030450000000N00000000EA0010000100".toList]

/-- C1, counterexample: on the Scenario A file the code's derived timestamp
is 2002-07-23 12:30:45 — `HFDTE230702` is parsed day-month-year (day 23,
month 07, year 2002+) — so the canonical date string is
"2002-07-23 12:30", not "2023-07-02 12:30" as the claim states. -/
theorem C1_counterexample :
    datetime_from_igc scenarioA =
      .ok { year := 2002, month := 7, day := 23, hour := 12, minute := 30, second := 45 } ∧
    (datetime_from_igc scenarioA).map DateTime.date_string ≠ .ok "2023-07-02 12:30" := by
  constructor
  · rfl
  · intro h
    have h2 : (datetime_from_igc scenarioA).map DateTime.date_string =
        .ok "2002-07-23 12:30" := rfl
    rw [h2] at h
    exact absurd (Except.ok.inj h) (by decide)

/-- C1, amended: for the Scenario A file the derived flight timestamp has
date 2002-07-23 (the header `HFDTE230702` encodes day 23, month 07,
two-digit year 02, i.e. 2002) and time 12:30 (the first B record's 10:30
plus the +2 hour offset), so the canonical date string of that file is
"2002-07-23 12:30". -/
theorem C1_amended :
    (datetime_from_igc scenarioA).map DateTime.date_string = .ok "2002-07-23 12:30" := by
  rfl

/-- A file whose time-zone offset pushes the first fix's hour past 23:
date 2023-07-01, first B record at 23:00:00, offset +2. -/
def fileC6 : List (List Char) :=
  ["HFDTE010723".toList, "HFTZNTIMEZONE+2".toList,
   "B2300000000000N00000000EA0010000100".toList]

/-- C6: the code does not roll the day over when the offset-adjusted hour
leaves 0..23; it passes the raw sum (here 23 + 2 = 25) to the `datetime`
constructor, which raises `ValueError`.  Evaluating the code at the
failing input shows the derivation fails instead of producing the
normalized timestamp 2023-07-02 01:00 the claim requires. -/
theorem C6_bug_eval :
    datetime_from_igc fileC6 = .error (.valueError "hour must be in 0..23") := by
  rfl

/-! ## Deduplication engine (`remove_duplicate_files`) -/

/-- A file on disk as the deduplication engine sees it: its name (resolved
paths are unique within one scan) and its byte content. -/
structure DFile where
  name : String
  content : List Nat
  deriving DecidableEq, Repr

/-- The mutable state of `remove_duplicate_files`: the `hashes` dict
(checksum → first file seen with that checksum, in insertion order) and
the `removed` list. -/
structure DedupState where
  hashes : List (Nat × DFile)
  removed : List DFile
  deriving DecidableEq, Repr

/-- `hashes.get(checksum)`: first binding of the key in the assoc list. -/
def lookupHash (c : Nat) : List (Nat × DFile) → Option DFile
  | [] => none
  | (c', f) :: rest => if c' = c then some f else lookupHash c rest

/-- One iteration of the `for f in files` loop of `remove_duplicate_files`,
parameterised by the content fingerprint function `h` (the seeded xxh3
hash in the source; any function of the bytes).  When the checksum is
already in the dict, the longer-named of the new file and the dict-held
file is appended to `removed` and unlinked; unlinking a path that was
already unlinked raises `FileNotFoundError` (modelled as `.error`),
which propagates out of the function.  The dict is never updated in this
branch.  When the checksum is new, the file is added to the dict. -/
def dedupStep (h : List Nat → Nat) (st : DedupState) (f : DFile) : Except DFile DedupState :=
  let c := h f.content
  match lookupHash c st.hashes with
  | some existing =>
    let longest := if existing.name.length > f.name.length then existing else f
    if longest ∈ st.removed then .error longest
    else .ok ⟨st.hashes, st.removed ++ [longest]⟩
  | none => .ok ⟨st.hashes ++ [(c, f)], st.removed⟩

/-- `remove_duplicate_files`: fold the loop body over the files in scan
order and return the list of removed files. -/
def remove_duplicate_files (h : List Nat → Nat) (files : List DFile) :
    Except DFile (List DFile) :=
  match files.foldlM (dedupStep h) ⟨[], []⟩ with
  | .ok st => .ok st.removed
  | .error e => .error e

/-- Sum-of-bytes fingerprint used to instantiate the engine on concrete
inputs (the engine is proved correct for every fingerprint function). -/
def sumHash (c : List Nat) : Nat := c.foldl (fun a b => a + b) 0

/-- Three byte-identical files in scan order. -/
def c2files : List DFile :=
  [⟨"MEDIUM.IGC", [1, 2]⟩, ⟨"AA.IGC", [1, 2]⟩, ⟨"B.IGC", [1, 2]⟩]

/-- C2: evaluating the engine at three byte-identical files named (in scan
order) MEDIUM.IGC, AA.IGC, B.IGC.  The dict entry is never updated when
the kept file is deleted: AA.IGC deletes MEDIUM.IGC, but B.IGC is still
compared against the stale dict entry MEDIUM.IGC and the code attempts
to unlink MEDIUM.IGC a second time, raising `FileNotFoundError` — the
engine does not complete and B.IGC (the shortest-named file) is not the
retained comparison target, contrary to the claim. -/
theorem C2_bug_eval :
    remove_duplicate_files sumHash c2files = .error ⟨"MEDIUM.IGC", [1, 2]⟩ := by
  rfl

/-- Three byte-identical files witnessing a deletion failure. -/
def c5files : List DFile :=
  [⟨"MEDIUM2.IGC", [5]⟩, ⟨"AB.IGC", [5]⟩, ⟨"C.IGC", [5]⟩]

/-- C5, counterexample: a directory in which one deletion fails (the
second unlink of MEDIUM2.IGC raises `FileNotFoundError`).  The engine
propagates the exception and aborts the scan: it returns no removed-file
list at all, instead of reporting the failure and continuing with the
remaining files as the claim states. -/
theorem C5_counterexample :
    remove_duplicate_files sumHash c5files = .error ⟨"MEDIUM2.IGC", [5]⟩ ∧
    ∀ r, remove_duplicate_files sumHash c5files ≠ .ok r := by
  refine ⟨rfl, fun r hr => ?_⟩
  rw [show remove_duplicate_files sumHash c5files = .error ⟨"MEDIUM2.IGC", [5]⟩ from rfl] at hr
  exact Except.noConfusion hr

/-- C5, amended: when a deletion fails, the exception propagates
immediately: for any scan prefix that succeeds with state `st`, if the
loop body fails on the next file `f`, the whole engine run returns that
error, regardless of the files after `f` — they are never examined, and
no removed-file list is returned. -/
theorem C5_amended (h : List Nat → Nat) (files1 files2 : List DFile) (f : DFile)
    (st : DedupState) (e : DFile)
    (h1 : files1.foldlM (dedupStep h) ⟨[], []⟩ = .ok st)
    (h2 : dedupStep h st f = .error e) :
    remove_duplicate_files h (files1 ++ f :: files2) = .error e := by
  unfold remove_duplicate_files
  rw [List.foldlM_append, h1]
  show (match (dedupStep h st f >>= fun st' => files2.foldlM (dedupStep h) st' :
      Except DFile DedupState) with
    | .ok st => Except.ok st.removed | .error e => .error e) = .error e
  rw [h2]
  rfl

/-- C5, witness for the amended theorem: concrete instantiation in which
the prefix [MEDIUM3.IGC, AB.IGC] succeeds (deleting MEDIUM3.IGC) and the
loop body fails on C.IGC; the run over the full directory, including a
further file D.IGC that is never examined, returns the error. -/
theorem C5_amended_witness :
    remove_duplicate_files sumHash
      ([⟨"MEDIUM3.IGC", [7]⟩, ⟨"AB.IGC", [7]⟩] ++ ⟨"C.IGC", [7]⟩ ::
        [⟨"D.IGC", [7]⟩]) = .error ⟨"MEDIUM3.IGC", [7]⟩ :=
  C5_amended sumHash [⟨"MEDIUM3.IGC", [7]⟩, ⟨"AB.IGC", [7]⟩] [⟨"D.IGC", [7]⟩]
    ⟨"C.IGC", [7]⟩
    ⟨[(7, ⟨"MEDIUM3.IGC", [7]⟩)], [⟨"MEDIUM3.IGC", [7]⟩]⟩
    ⟨"MEDIUM3.IGC", [7]⟩ (by rfl) (by rfl)

/-- The files of `done` whose content fingerprint is `c`. -/
def classOf (h : List Nat → Nat) (c : Nat) (done : List DFile) : List DFile :=
  done.filter (fun f => decide (h f.content = c))

/-- Per-fingerprint-class invariant relative to the removed list: either
the first-seen file of the class is still on disk and every other class
member has been removed and is no shorter than it, or the first-seen
file was itself removed by a strictly shorter surviving member and every
other removed member is at least as long as the first-seen file. -/
def ClassInv (cls removed : List DFile) : Prop :=
  match cls with
  | [] => True
  | f1 :: rest =>
    (f1 ∉ removed ∧ ∀ g ∈ rest, g ∈ removed ∧ f1.name.length ≤ g.name.length)
    ∨ (f1 ∈ removed ∧ ∃ s, s ∈ rest ∧ s ∉ removed ∧ s.name.length < f1.name.length
        ∧ ∀ g ∈ rest, g ≠ s → g ∈ removed ∧ f1.name.length ≤ g.name.length)

/-- Loop invariant of `remove_duplicate_files` after processing the scan
prefix `done`: the dict maps each checksum to the first file of its
class, the removed list is a duplicate-free sublist of the processed
files, and every class satisfies `ClassInv`. -/
def DedupInv (h : List Nat → Nat) (done : List DFile) (st : DedupState) : Prop :=
  (∀ c, lookupHash c st.hashes = (classOf h c done).head?)
  ∧ (∀ g ∈ st.removed, g ∈ done)
  ∧ st.removed.Nodup
  ∧ (∀ c, ClassInv (classOf h c done) st.removed)

theorem lookupHash_append (c c' : Nat) (f : DFile) (xs : List (Nat × DFile)) :
    lookupHash c (xs ++ [(c', f)]) =
      match lookupHash c xs with
      | some g => some g
      | none => if c' = c then some f else none := by
  induction xs with
  | nil => rfl
  | cons p rest ih =>
    obtain ⟨c0, f0⟩ := p
    by_cases hc : c0 = c
    · simp [lookupHash, hc]
    · simp [lookupHash, hc, ih]

theorem classOf_append (h : List Nat → Nat) (c : Nat) (done : List DFile) (f : DFile) :
    classOf h c (done ++ [f]) =
      classOf h c done ++ (if h f.content = c then [f] else []) := by
  unfold classOf
  rw [List.filter_append]
  by_cases hc : h f.content = c
  · simp [hc]
  · simp [hc]

theorem mem_classOf {h : List Nat → Nat} {c : Nat} {done : List DFile} {g : DFile} :
    g ∈ classOf h c done ↔ g ∈ done ∧ h g.content = c := by
  simp [classOf, List.mem_filter]

theorem classInv_grow {cls removed : List DFile} {x : DFile}
    (hinv : ClassInv cls removed) (hx : ∀ g ∈ cls, g ≠ x) :
    ClassInv cls (removed ++ [x]) := by
  cases cls with
  | nil => trivial
  | cons f1 rest =>
    have hne1 : f1 ≠ x := hx f1 (List.mem_cons_self f1 rest)
    have hmem : ∀ g : DFile, g ≠ x → (g ∈ removed ++ [x] ↔ g ∈ removed) := by
      intro g hg
      simp [List.mem_append, hg]
    rcases hinv with ⟨h1, hall⟩ | ⟨h1, s, hs, hsn, hlen, hall⟩
    · left
      refine ⟨by rw [hmem f1 hne1]; exact h1, fun g hg => ?_⟩
      have hgx : g ≠ x := hx g (List.mem_cons_of_mem _ hg)
      exact ⟨by rw [hmem g hgx]; exact (hall g hg).1, (hall g hg).2⟩
    · right
      refine ⟨by rw [hmem f1 hne1]; exact h1, s, hs, ?_, hlen, fun g hg hgs => ?_⟩
      · rw [hmem s (hx s (List.mem_cons_of_mem _ hs))]; exact hsn
      · have hgx : g ≠ x := hx g (List.mem_cons_of_mem _ hg)
        exact ⟨by rw [hmem g hgx]; exact (hall g hg hgs).1, (hall g hg hgs).2⟩

theorem dedupInv_step (h : List Nat → Nat) {done : List DFile} {st st' : DedupState}
    {f : DFile} (hf : f ∉ done) (hinv : DedupInv h done st)
    (hok : dedupStep h st f = .ok st') : DedupInv h (done ++ [f]) st' := by
  obtain ⟨hdict, hsub, hnd, hcls⟩ := hinv
  have hfr : f ∉ st.removed := fun hmem => hf (hsub f hmem)
  simp only [dedupStep] at hok
  rcases hlk : lookupHash (h f.content) st.hashes with _ | ex
  · -- new checksum: the file is added to the dict
    rw [hlk] at hok
    simp only at hok
    have hst' : st' = ⟨st.hashes ++ [(h f.content, f)], st.removed⟩ :=
      (Except.ok.inj hok).symm
    subst hst'
    have hclsnil : classOf h (h f.content) done = [] := by
      have := hdict (h f.content)
      rw [hlk] at this
      exact (List.head?_eq_none_iff).mp this.symm
    refine ⟨fun c => ?_, fun g hg => List.mem_append_left _ (hsub g hg), hnd, fun c => ?_⟩
    · rw [lookupHash_append, classOf_append, hdict c]
      by_cases hc : h f.content = c
      · subst hc
        rw [hclsnil]
        simp
      · rcases classOf h c done with _ | ⟨g, t⟩
        · simp [hc]
        · simp [hc]
    · by_cases hc : h f.content = c
      · subst hc
        have hone : classOf h (h f.content) (done ++ [f]) = [f] := by
          rw [classOf_append, hclsnil]
          simp
        rw [hone]
        exact Or.inl ⟨hfr, by simp⟩
      · rw [classOf_append, if_neg hc, List.append_nil]
        exact hcls c
  · -- checksum collision with the (stale) dict entry `ex`
    rw [hlk] at hok
    simp only at hok
    have hex : ex ∈ done ∧ h ex.content = h f.content := by
      have hdd := hdict (h f.content)
      rw [hlk] at hdd
      have hexmem : ex ∈ classOf h (h f.content) done := by
        rcases hcc : classOf h (h f.content) done with _ | ⟨x, t⟩
        · rw [hcc] at hdd; exact absurd hdd (by simp)
        · rw [hcc] at hdd
          simp only [List.head?_cons] at hdd
          rw [Option.some.inj hdd]
          exact List.mem_cons_self x t
      exact mem_classOf.mp hexmem
    set longest := if ex.name.length > f.name.length then ex else f with hlg
    by_cases hrm : longest ∈ st.removed
    · rw [if_pos hrm] at hok
      exact absurd hok (by simp)
    · rw [if_neg hrm] at hok
      have hst' : st' = ⟨st.hashes, st.removed ++ [longest]⟩ := (Except.ok.inj hok).symm
      subst hst'
      have hlgcases : longest = ex ∨ longest = f := by
        rw [hlg]
        by_cases hgt : ex.name.length > f.name.length
        · exact Or.inl (if_pos hgt)
        · exact Or.inr (if_neg hgt)
      have hlghash : h longest.content = h f.content := by
        rcases hlgcases with hq | hq
        · rw [hq]; exact hex.2
        · rw [hq]
      have hlgdone : longest ∈ done ++ [f] := by
        rcases hlgcases with hq | hq
        · rw [hq]; exact List.mem_append_left _ hex.1
        · rw [hq]; simp
      refine ⟨fun c => ?_, fun g hg => ?_, ?_, fun c => ?_⟩
      · -- the dict is unchanged; new classes only grow at the tail
        rw [classOf_append]
        by_cases hc : h f.content = c
        · rw [if_pos hc]
          have hdc := hdict c
          rw [← hc] at hdc ⊢
          rw [hlk] at hdc
          rcases hcc : classOf h (h f.content) done with _ | ⟨x, t⟩
          · rw [hcc] at hdc; exact absurd hdc (by simp)
          · rw [hcc] at hdc
            rw [hlk]
            simp only [List.cons_append, List.head?_cons] at hdc ⊢
            exact hdc
        · rw [if_neg hc, List.append_nil]
          exact hdict c
      · rcases List.mem_append.mp hg with hg1 | hg2
        · exact List.mem_append_left _ (hsub g hg1)
        · rw [List.mem_singleton.mp hg2]
          exact hlgdone
      · simp [List.nodup_append, hnd, hrm]
      · by_cases hc : h f.content = c
        · -- the colliding class: f is appended behind the stale head
          subst hc
          have hdc := hdict (h f.content)
          rw [hlk] at hdc
          rcases hcc : classOf h (h f.content) done with _ | ⟨f1, rest0⟩
          · rw [hcc] at hdc; exact absurd hdc (by simp)
          · rw [hcc] at hdc
            simp only [List.head?_cons] at hdc
            have hf1 : f1 = ex := (Option.some.inj hdc).symm
            rw [hf1] at hcc
            have hclseq : classOf h (h f.content) (done ++ [f]) = ex :: (rest0 ++ [f]) := by
              rw [classOf_append, hcc, if_pos rfl]
              simp
            rw [hclseq]
            have hcinv := hcls (h f.content)
            rw [hcc] at hcinv
            have hfex : f ≠ ex := fun hq => hf (hq ▸ hex.1)
            have hfrest : f ∉ rest0 := fun hq =>
              hf (mem_classOf.mp (show f ∈ classOf h (h f.content) done by
                rw [hcc]; exact List.mem_cons_of_mem _ hq)).1
            show ClassInv (ex :: (rest0 ++ [f])) (st.removed ++ [longest])
            rcases hcinv with ⟨h1, hall⟩ | ⟨h1, s, hs, hsn, hslen, hall⟩
            · -- the first-seen file was still on disk
              by_cases hgt : ex.name.length > f.name.length
              · -- `f` is strictly shorter: `ex` is deleted, `f` survives
                have hlgex : longest = ex := by rw [hlg, if_pos hgt]
                right
                refine ⟨by rw [hlgex]; simp, f, by simp, ?_, hgt, fun g hg hgf => ?_⟩
                · rw [hlgex]
                  simp only [List.mem_append, List.mem_singleton]
                  rintro (hq | hq)
                  · exact hfr hq
                  · exact hfex hq
                · rcases List.mem_append.mp hg with hg1 | hg2
                  · exact ⟨List.mem_append_left _ (hall g hg1).1, (hall g hg1).2⟩
                  · exact absurd (List.mem_singleton.mp hg2) hgf
              · -- `f` is no shorter: `f` is deleted, `ex` stays kept
                have hlgf : longest = f := by rw [hlg, if_neg hgt]
                left
                have hexlen : ex.name.length ≤ f.name.length := Nat.le_of_not_lt hgt
                refine ⟨?_, fun g hg => ?_⟩
                · rw [hlgf]
                  simp only [List.mem_append, List.mem_singleton]
                  rintro (hq | hq)
                  · exact h1 hq
                  · exact hfex.symm hq
                · rcases List.mem_append.mp hg with hg1 | hg2
                  · exact ⟨List.mem_append_left _ (hall g hg1).1, (hall g hg1).2⟩
                  · rw [List.mem_singleton.mp hg2]
                    exact ⟨by rw [hlgf]; simp, hexlen⟩
            · -- the first-seen file was already removed; survivor `s`
              by_cases hgt : ex.name.length > f.name.length
              · -- crash branch: ruled out by the successful unlink
                have hlgex : longest = ex := by rw [hlg, if_pos hgt]
                rw [hlgex] at hrm
                exact absurd h1 hrm
              · have hlgf : longest = f := by rw [hlg, if_neg hgt]
                right
                have hsex : s ≠ ex := fun hq => hsn (hq ▸ h1)
                have hsf : s ≠ f := fun hq => hfrest (hq ▸ hs)
                refine ⟨List.mem_append_left _ h1, s, List.mem_append_left _ hs, ?_,
                  hslen, fun g hg hgs => ?_⟩
                · rw [hlgf]
                  simp only [List.mem_append, List.mem_singleton]
                  rintro (hq | hq)
                  · exact hsn hq
                  · exact hsf hq
                · rcases List.mem_append.mp hg with hg1 | hg2
                  · exact ⟨List.mem_append_left _ (hall g hg1 hgs).1, (hall g hg1 hgs).2⟩
                  · rw [List.mem_singleton.mp hg2]
                    exact ⟨by rw [hlgf]; simp, Nat.le_of_not_lt hgt⟩
        · -- other classes are untouched
          rw [classOf_append, if_neg hc, List.append_nil]
          refine classInv_grow (hcls c) (fun g hg hq => hc ?_)
          have hgc := (mem_classOf.mp hg).2
          rw [hq, hlghash] at hgc
          exact hgc

theorem dedupInv_run (h : List Nat → Nat) :
    ∀ (files done : List DFile) (st stFin : DedupState),
      DedupInv h done st → ((done ++ files).map DFile.name).Nodup →
      files.foldlM (dedupStep h) st = .ok stFin → DedupInv h (done ++ files) stFin := by
  intro files
  induction files with
  | nil =>
    intro done st stFin hinv _ hfold
    simp only [List.foldlM_nil] at hfold
    rw [List.append_nil]
    rw [← Except.ok.inj hfold]
    exact hinv
  | cons f fs ih =>
    intro done st stFin hinv hnd hfold
    rw [List.foldlM_cons] at hfold
    rcases hstep : dedupStep h st f with e | st'
    · rw [hstep] at hfold
      have hred : (Except.error e >>= fun st' => fs.foldlM (dedupStep h) st' :
          Except DFile DedupState) = Except.error e := rfl
      rw [hred] at hfold
      exact Except.noConfusion hfold
    · rw [hstep] at hfold
      have hfold' : fs.foldlM (dedupStep h) st' = .ok stFin := hfold
      have hfd : f ∉ done := by
        intro hmem
        have h1 : f.name ∈ done.map DFile.name := List.mem_map_of_mem _ hmem
        have h2 : f.name ∈ (f :: fs).map DFile.name := by simp
        have := (List.nodup_append.mp (by rw [← List.map_append]; exact hnd)).2.2
        exact this h1 h2
      have hinv' := dedupInv_step h hfd hinv hstep
      have hnd' : (((done ++ [f]) ++ fs).map DFile.name).Nodup := by
        rw [List.append_assoc, List.singleton_append]
        exact hnd
      have := ih (done ++ [f]) st' stFin hinv' hnd' hfold'
      rw [List.append_assoc, List.singleton_append] at this
      exact this

/-- C3: for every fingerprint function and every directory scan with
duplicate-free file names, if `remove_duplicate_files` finishes
(returns rather than raising), then (1) the returned list is exactly the
duplicate-free set of deleted scan files, (2) no two surviving files
share a fingerprint, and (3) every survivor's name is no longer than
that of any deleted file with the same fingerprint. -/
theorem C3_dedup_invariant (h : List Nat → Nat) (files removed : List DFile)
    (hnd : (files.map DFile.name).Nodup)
    (hok : remove_duplicate_files h files = .ok removed) :
    ((∀ r ∈ removed, r ∈ files) ∧ removed.Nodup)
    ∧ (∀ s1 ∈ files.filter (fun f => decide (f ∉ removed)),
        ∀ s2 ∈ files.filter (fun f => decide (f ∉ removed)),
          s1 ≠ s2 → h s1.content ≠ h s2.content)
    ∧ (∀ s ∈ files.filter (fun f => decide (f ∉ removed)), ∀ r ∈ removed,
        h s.content = h r.content → s.name.length ≤ r.name.length) := by
  unfold remove_duplicate_files at hok
  rcases hfold : files.foldlM (dedupStep h) ⟨[], []⟩ with e | stFin
  · rw [hfold] at hok; exact absurd hok (by simp)
  · rw [hfold] at hok
    simp only [Except.ok.injEq] at hok
    have hinv0 : DedupInv h [] ⟨[], []⟩ := by
      refine ⟨fun c => rfl, by simp, List.nodup_nil, fun c => ?_⟩
      show ClassInv [] []
      trivial
    have hinv := dedupInv_run h files [] ⟨[], []⟩ stFin hinv0 (by simpa using hnd) hfold
    rw [List.nil_append] at hinv
    obtain ⟨hdict, hsub, hndr, hcls⟩ := hinv
    rw [← hok]
    have hsurv : ∀ s : DFile, s ∈ files.filter (fun f => decide (f ∉ stFin.removed)) ↔
        s ∈ files ∧ s ∉ stFin.removed := by
      intro s
      simp [List.mem_filter]
    refine ⟨⟨hsub, hndr⟩, fun s1 hs1 s2 hs2 hne hh => ?_, fun s hsmem r hr hh => ?_⟩
    · obtain ⟨hs1f, hs1r⟩ := (hsurv s1).mp hs1
      obtain ⟨hs2f, hs2r⟩ := (hsurv s2).mp hs2
      have hc1 : s1 ∈ classOf h (h s1.content) files := mem_classOf.mpr ⟨hs1f, rfl⟩
      have hc2 : s2 ∈ classOf h (h s1.content) files := mem_classOf.mpr ⟨hs2f, hh.symm⟩
      have hcinv := hcls (h s1.content)
      rcases hcc : classOf h (h s1.content) files with _ | ⟨f1, rest⟩
      · rw [hcc] at hc1; exact absurd hc1 (by simp)
      · rw [hcc] at hcinv hc1 hc2
        rcases hcinv with ⟨h1, hall⟩ | ⟨h1, s0, hs0, hs0n, _, hall⟩
        · have e1 : s1 = f1 := by
            rcases List.mem_cons.mp hc1 with hq | hq
            · exact hq
            · exact absurd (hall s1 hq).1 hs1r
          have e2 : s2 = f1 := by
            rcases List.mem_cons.mp hc2 with hq | hq
            · exact hq
            · exact absurd (hall s2 hq).1 hs2r
          exact hne (e1.trans e2.symm)
        · have e1 : s1 = s0 := by
            rcases List.mem_cons.mp hc1 with hq | hq
            · exact absurd (hq ▸ h1) hs1r
            · by_contra hq2
              exact hs1r (hall s1 hq hq2).1
          have e2 : s2 = s0 := by
            rcases List.mem_cons.mp hc2 with hq | hq
            · exact absurd (hq ▸ h1) hs2r
            · by_contra hq2
              exact hs2r (hall s2 hq hq2).1
          exact hne (e1.trans e2.symm)
    · obtain ⟨hsf, hsr⟩ := (hsurv s).mp hsmem
      have hc1 : s ∈ classOf h (h s.content) files := mem_classOf.mpr ⟨hsf, rfl⟩
      have hc2 : r ∈ classOf h (h s.content) files := mem_classOf.mpr ⟨hsub r hr, hh.symm⟩
      have hcinv := hcls (h s.content)
      rcases hcc : classOf h (h s.content) files with _ | ⟨f1, rest⟩
      · rw [hcc] at hc1; exact absurd hc1 (by simp)
      · rw [hcc] at hcinv hc1 hc2
        rcases hcinv with ⟨h1, hall⟩ | ⟨h1, s0, hs0, hs0n, hslen, hall⟩
        · have e1 : s = f1 := by
            rcases List.mem_cons.mp hc1 with hq | hq
            · exact hq
            · exact absurd (hall s hq).1 hsr
          rcases List.mem_cons.mp hc2 with hq | hq
          · exact absurd (hq ▸ hr) (e1 ▸ hsr)
          · exact e1 ▸ (hall r hq).2
        · have e1 : s = s0 := by
            rcases List.mem_cons.mp hc1 with hq | hq
            · exact absurd (hq ▸ h1) hsr
            · by_contra hq2
              exact hsr (hall s hq hq2).1
          rcases List.mem_cons.mp hc2 with hq | hq
          · exact e1 ▸ (Nat.le_of_lt (hq ▸ hslen))
          · by_cases hq2 : r = s0
            · exact absurd (hq2 ▸ hr) hs0n
            · exact e1 ▸ (Nat.le_trans (Nat.le_of_lt hslen) (hall r hq hq2).2)

/-- C3, witness: a concrete scan (two byte-identical files plus one
distinct file) on which the engine completes; the invariant theorem's
conclusions evaluated at that scan. -/
theorem C3_dedup_invariant_witness :
    ((∀ r ∈ [(⟨"LONGNAME.IGC", [1]⟩ : DFile)],
        r ∈ [(⟨"AAAA.IGC", [1]⟩ : DFile), ⟨"LONGNAME.IGC", [1]⟩, ⟨"C.IGC", [2]⟩]) ∧
      ([(⟨"LONGNAME.IGC", [1]⟩ : DFile)]).Nodup)
    ∧ (∀ s1 ∈ ([(⟨"AAAA.IGC", [1]⟩ : DFile), ⟨"LONGNAME.IGC", [1]⟩, ⟨"C.IGC", [2]⟩]).filter
          (fun f => decide (f ∉ [(⟨"LONGNAME.IGC", [1]⟩ : DFile)])),
        ∀ s2 ∈ ([(⟨"AAAA.IGC", [1]⟩ : DFile), ⟨"LONGNAME.IGC", [1]⟩, ⟨"C.IGC", [2]⟩]).filter
          (fun f => decide (f ∉ [(⟨"LONGNAME.IGC", [1]⟩ : DFile)])),
          s1 ≠ s2 → sumHash s1.content ≠ sumHash s2.content)
    ∧ (∀ s ∈ ([(⟨"AAAA.IGC", [1]⟩ : DFile), ⟨"LONGNAME.IGC", [1]⟩, ⟨"C.IGC", [2]⟩]).filter
          (fun f => decide (f ∉ [(⟨"LONGNAME.IGC", [1]⟩ : DFile)])),
        ∀ r ∈ [(⟨"LONGNAME.IGC", [1]⟩ : DFile)],
          sumHash s.content = sumHash r.content → s.name.length ≤ r.name.length) :=
  C3_dedup_invariant sumHash
    [⟨"AAAA.IGC", [1]⟩, ⟨"LONGNAME.IGC", [1]⟩, ⟨"C.IGC", [2]⟩]
    [⟨"LONGNAME.IGC", [1]⟩] (by decide) (by rfl)

/-! ## Header parsing (`parse_tracklog_header`) -/

/-- The `records` dict of `parse_tracklog_header`: 5-character header
codes mapped to field names, in source order. -/
def headerRecords : List (List Char × String) :=
  [("HFDTE".toList, "date"), ("HFFXA".toList, "fix_accuracy"), ("HFPLT".toList, "pilot"),
   ("HFCM2".toList, "second_pilot"), ("HFGTY".toList, "glider_type"),
   ("HFGID".toList, "glider_id"), ("HFDTM".toList, "gps_datum"),
   ("HFRFW".toList, "firmware_version"), ("HFRHW".toList, "hardware_version"),
   ("HFFTY".toList, "manufacturer_model"), ("HFGPS".toList, "gps"),
   ("HFPRS".toList, "pressure_sensor"), ("HFCID".toList, "competition_id"),
   ("HFCCL".toList, "competition_class"), ("HFTZN".toList, "time_zone"),
   ("HFSIT".toList, "site")]

/-- `records.get(line[:5])`: look a 5-character code up in the dict. -/
def lookupCode (code : List Char) : List (List Char × String) → Option String
  | [] => none
  | (c, k) :: rest => if c = code then some k else lookupCode code rest

/-- Python `str.split(sep)` for a one-character separator: splits into
the (colon-count + 1) segments, keeping empty segments. -/
def pySplitCh (sep : Char) : List Char → List (List Char)
  | [] => [[]]
  | c :: rest =>
    match pySplitCh sep rest with
    | [] => [[]]
    | seg :: segs => if c = sep then [] :: seg :: segs else (c :: seg) :: segs

/-- `line.split(':')[-1]`: the last segment of the colon-split. -/
def lastSeg (l : List Char) : List Char := (pySplitCh ':' l).getLastD []

/-- Python dict assignment `m[k] = v` on an insertion-ordered assoc list:
replace the value in place if the key exists, else append. -/
def upsert : List (String × List Char) → String → List Char → List (String × List Char)
  | [], k, v => [(k, v)]
  | (k', v') :: rest, k, v =>
    if k' = k then (k', v) :: rest else (k', v') :: upsert rest k v

/-- Python dict lookup `m[k]` (first — and only — binding of the key). -/
def hget : List (String × List Char) → String → Option (List Char)
  | [], _ => none
  | (k', v) :: rest, k => if k' = k then some v else hget rest k

/-- The loop body of `parse_tracklog_header`: strip the line; if its
first five characters are a recognized code, store everything after the
last colon under that code's field name; then, independently, if the
line starts with `HFDTE`, store the substring from offset 5 under
`date` (overwriting the value the first branch just stored). -/
def headerStep (m : List (String × List Char)) (line : List Char) :
    List (String × List Char) :=
  let l := pyStrip line
  let m1 := match lookupCode (l.take 5) headerRecords with
    | some k => upsert m k (lastSeg l)
    | none => m
  if hfdteP.isPrefixOf l then upsert m1 "date" (l.drop 5) else m1

/-- `parse_tracklog_header`: fold the loop body over the file's lines,
starting from the empty header dict. -/
def parse_tracklog_header (lines : List (List Char)) : List (String × List Char) :=
  lines.foldl headerStep []

/-- The assignment a single line makes to key `k`, if any (the `date`
assignment wins over the colon-split assignment on `HFDTE` lines, since
it is executed second). -/
def lineVal (line : List Char) (k : String) : Option (List Char) :=
  let l := pyStrip line
  if hfdteP.isPrefixOf l ∧ k = "date" then some (l.drop 5)
  else match lookupCode (l.take 5) headerRecords with
    | some k' => if k' = k then some (lastSeg l) else none
    | none => none

theorem hget_upsert_self (m : List (String × List Char)) (k : String) (v : List Char) :
    hget (upsert m k v) k = some v := by
  induction m with
  | nil => simp [upsert, hget]
  | cons p rest ih =>
    obtain ⟨k', v'⟩ := p
    by_cases hk : k' = k
    · simp [upsert, hget, hk]
    · simp [upsert, hget, hk, ih]

theorem hget_upsert_other (m : List (String × List Char)) (k k2 : String) (v : List Char)
    (hk : k2 ≠ k) : hget (upsert m k v) k2 = hget m k2 := by
  induction m with
  | nil =>
    simp only [upsert, hget]
    rw [if_neg (fun h : k = k2 => hk h.symm)]
  | cons p rest ih =>
    obtain ⟨k', v'⟩ := p
    simp only [upsert]
    by_cases hk' : k' = k
    · rw [if_pos hk']
      simp only [hget]
      have hk2 : ¬ k' = k2 := fun h => hk (h.symm.trans hk')
      rw [if_neg hk2, if_neg hk2]
    · rw [if_neg hk']
      simp only [hget]
      by_cases hk2 : k' = k2
      · rw [if_pos hk2, if_pos hk2]
      · rw [if_neg hk2, if_neg hk2, ih]

theorem take5_of_hfdte {l : List Char} (hp : hfdteP.isPrefixOf l) :
    l.take 5 = hfdteP := by
  obtain ⟨t, ht⟩ := List.isPrefixOf_iff_prefix.mp hp
  rw [← ht, List.take_append_of_le_length (by decide)]
  rfl

/-- Characterization of one loop iteration: the value stored for `k` is
the line's own assignment if it makes one, else the old value. -/
theorem hget_headerStep (m : List (String × List Char)) (line : List Char) (k : String) :
    hget (headerStep m line) k =
      match lineVal line k with
      | some v => some v
      | none => hget m k := by
  simp only [headerStep, lineVal]
  rcases hlc : lookupCode ((pyStrip line).take 5) headerRecords with _ | k'
  · by_cases hp : hfdteP.isPrefixOf (pyStrip line)
    · exfalso
      rw [take5_of_hfdte hp] at hlc
      have hd : lookupCode hfdteP headerRecords = some "date" := rfl
      rw [hd] at hlc
      exact Option.noConfusion hlc
    · simp [hp]
  · by_cases hp : hfdteP.isPrefixOf (pyStrip line)
    · have hk' : k' = "date" := by
        rw [take5_of_hfdte hp] at hlc
        have hd : lookupCode hfdteP headerRecords = some "date" := rfl
        rw [hd] at hlc
        exact (Option.some.inj hlc).symm
      subst hk'
      by_cases hk : k = "date"
      · subst hk
        simp [hp, hget_upsert_self]
      · have hkd : ¬ ("date" : String) = k := fun h => hk h.symm
        simp [hp, hk, hkd, hget_upsert_other]
    · by_cases hk : k' = k
      · subst hk
        simp [hp, hget_upsert_self]
      · have hks : ¬ k = k' := fun h => hk h.symm
        simp [hp, hk, hget_upsert_other, hks]

theorem hget_fold_untouched (lines : List (List Char)) (m : List (String × List Char))
    (k : String) (hn : ∀ l ∈ lines, lineVal l k = none) :
    hget (lines.foldl headerStep m) k = hget m k := by
  induction lines generalizing m with
  | nil => rfl
  | cons l rest ih =>
    rw [List.foldl_cons, ih _ (fun x hx => hn x (List.mem_cons_of_mem _ hx))]
    rw [hget_headerStep, hn l (List.mem_cons_self _ _)]

theorem pySplitCh_ne_nil (sep : Char) (l : List Char) : pySplitCh sep l ≠ [] := by
  cases l with
  | nil => simp [pySplitCh]
  | cons c rest =>
    simp only [pySplitCh]
    rcases pySplitCh sep rest with _ | ⟨seg, segs⟩
    · simp
    · by_cases hc : c = sep
      · simp [hc]
      · simp [hc]

theorem pySplitCh_no_sep (sep : Char) (l : List Char) (h : sep ∉ l) :
    pySplitCh sep l = [l] := by
  induction l with
  | nil => rfl
  | cons c rest ih =>
    have hc : c ≠ sep := fun hq => h (hq ▸ List.mem_cons_self c rest)
    have hr : sep ∉ rest := fun hq => h (List.mem_cons_of_mem _ hq)
    simp only [pySplitCh, ih hr]
    simp [hc]

theorem pySplitCh_length (sep : Char) (l : List Char) :
    (pySplitCh sep l).length = l.count sep + 1 := by
  induction l with
  | nil => rfl
  | cons c rest ih =>
    simp only [pySplitCh]
    rcases hr : pySplitCh sep rest with _ | ⟨seg, segs⟩
    · exact absurd hr (pySplitCh_ne_nil sep rest)
    · by_cases hc : c = sep
      · show (if c = sep then [] :: seg :: segs else (c :: seg) :: segs).length =
          List.count sep (c :: rest) + 1
        rw [if_pos hc]
        have h1 : (([] : List Char) :: seg :: segs).length = (seg :: segs).length + 1 := rfl
        rw [h1, ← hr, ih, List.count_cons]
        simp [hc]
      · show (if c = sep then [] :: seg :: segs else (c :: seg) :: segs).length =
          List.count sep (c :: rest) + 1
        rw [if_neg hc]
        have h1 : ((c :: seg) :: segs).length = (seg :: segs).length := rfl
        rw [h1, ← hr, ih, List.count_cons]
        simp [hc, fun h : sep = c => hc h.symm]

theorem getLastD_of_ne_nil {α : Type} (l : List α) (h : l ≠ []) (d d' : α) :
    l.getLastD d = l.getLastD d' := by
  cases l with
  | nil => exact absurd rfl h
  | cons a t => rw [List.getLastD_cons, List.getLastD_cons]

/-- `lastSeg` is the substring after the last colon: if the line contains
a colon, the line decomposes as `p ++ ':' :: lastSeg l` with no colon in
`lastSeg l`. -/
theorem lastSeg_spec (l : List Char) (h : ':' ∈ l) :
    (∃ p, l = p ++ ':' :: lastSeg l) ∧ ':' ∉ lastSeg l := by
  induction l with
  | nil => exact absurd h (by simp)
  | cons c rest ih =>
    by_cases hc : c = ':'
    · subst hc
      have hls : lastSeg (':' :: rest) = lastSeg rest := by
        unfold lastSeg
        simp only [pySplitCh]
        rcases hr : pySplitCh ':' rest with _ | ⟨seg, segs⟩
        · exact absurd hr (pySplitCh_ne_nil ':' rest)
        · show (if (':' : Char) = ':' then [] :: seg :: segs
              else ((':' :: seg) :: segs)).getLastD [] = (seg :: segs).getLastD []
          rw [if_pos rfl, List.getLastD_cons]
      rw [hls]
      by_cases hin : ':' ∈ rest
      · obtain ⟨⟨p, hp⟩, hnin⟩ := ih hin
        refine ⟨⟨':' :: p, ?_⟩, hnin⟩
        conv_lhs => rw [hp]
        rw [List.cons_append]
      · have hrest : lastSeg rest = rest := by
          unfold lastSeg
          rw [pySplitCh_no_sep ':' rest hin]
          rfl
        rw [hrest]
        exact ⟨⟨[], rfl⟩, hin⟩
    · have hin : ':' ∈ rest := by
        rcases List.mem_cons.mp h with hq | hq
        · exact absurd hq.symm hc
        · exact hq
      obtain ⟨⟨p, hp⟩, hnin⟩ := ih hin
      have hsegs : ∃ seg s2 ss, pySplitCh ':' rest = seg :: s2 :: ss := by
        have hlen : 2 ≤ (pySplitCh ':' rest).length := by
          rw [pySplitCh_length]
          have h1 : 1 ≤ rest.count ':' := List.one_le_count_iff.mpr hin
          omega
        rcases hq : pySplitCh ':' rest with _ | ⟨seg, _ | ⟨s2, ss⟩⟩
        · rw [hq] at hlen; simp at hlen
        · rw [hq] at hlen; simp at hlen
        · exact ⟨seg, s2, ss, rfl⟩
      obtain ⟨seg, s2, ss, hsp⟩ := hsegs
      have hls : lastSeg (c :: rest) = lastSeg rest := by
        unfold lastSeg
        simp only [pySplitCh, hsp]
        rw [if_neg hc]
        have e1 : ((c :: seg) :: s2 :: ss).getLastD ([] : List Char) =
            (s2 :: ss).getLastD (c :: seg) := List.getLastD_cons _ _ _
        have e2 : (seg :: s2 :: ss).getLastD ([] : List Char) =
            (s2 :: ss).getLastD seg := List.getLastD_cons _ _ _
        rw [e1, e2]
        exact getLastD_of_ne_nil (s2 :: ss) (by simp) (c :: seg) seg
      rw [hls]
      refine ⟨⟨c :: p, ?_⟩, hnin⟩
      conv_lhs => rw [hp]
      rw [List.cons_append]

/-- C9: contract of the header-record decoder.  (a) A line whose 5-char
code is recognized and is not the date code stores exactly the substring
after the last colon (the line decomposes around that colon); (b) a
`HFDTE` line stores exactly the substring from offset 5; (c) a line
starting with `H` whose 5-char code is unrecognized leaves the map
unchanged (and, the step being a total function, raises nothing);
(d) when several lines assign the same code, the last assignment wins. -/
theorem C9_header_rules :
    (∀ (m : List (String × List Char)) (line : List Char) (k : String),
      lookupCode ((pyStrip line).take 5) headerRecords = some k → k ≠ "date" →
      ':' ∈ pyStrip line →
      hget (headerStep m line) k = some (lastSeg (pyStrip line)) ∧
      (∃ p, pyStrip line = p ++ ':' :: lastSeg (pyStrip line)) ∧
      ':' ∉ lastSeg (pyStrip line))
    ∧ (∀ (m : List (String × List Char)) (line : List Char),
      hfdteP.isPrefixOf (pyStrip line) →
      hget (headerStep m line) "date" = some ((pyStrip line).drop 5))
    ∧ (∀ (m : List (String × List Char)) (line : List Char),
      (pyStrip line).take 1 = ['H'] →
      lookupCode ((pyStrip line).take 5) headerRecords = none →
      headerStep m line = m)
    ∧ (∀ (xs ys : List (List Char)) (line : List Char) (k : String) (v : List Char),
      lineVal line k = some v → (∀ y ∈ ys, lineVal y k = none) →
      hget (parse_tracklog_header (xs ++ line :: ys)) k = some v) := by
  refine ⟨fun m line k hlc hkd hcol => ?_, fun m line hp => ?_, fun m line _ hlc => ?_,
    fun xs ys line k v hsv hns => ?_⟩
  · have hnp : ¬ hfdteP.isPrefixOf (pyStrip line) := by
      intro hp
      rw [take5_of_hfdte hp] at hlc
      have : some ("date" : String) = some k := by rw [← hlc]; rfl
      exact hkd (Option.some.inj this).symm
    have hval : lineVal line k = some (lastSeg (pyStrip line)) := by
      unfold lineVal
      rw [if_neg (fun hq : hfdteP.isPrefixOf (pyStrip line) ∧ k = "date" => hnp hq.1), hlc]
      show (if k = k then some (lastSeg (pyStrip line)) else none) =
        some (lastSeg (pyStrip line))
      rw [if_pos rfl]
    obtain ⟨⟨p, hp⟩, hnin⟩ := lastSeg_spec (pyStrip line) hcol
    refine ⟨?_, ⟨p, hp⟩, hnin⟩
    rw [hget_headerStep, hval]
  · have hval : lineVal line "date" = some ((pyStrip line).drop 5) := by
      unfold lineVal
      rw [if_pos ⟨hp, rfl⟩]
    rw [hget_headerStep, hval]
  · have hnp : ¬ hfdteP.isPrefixOf (pyStrip line) := by
      intro hp
      rw [take5_of_hfdte hp] at hlc
      have hd : lookupCode hfdteP headerRecords = some "date" := rfl
      rw [hd] at hlc
      exact Option.noConfusion hlc
    simp only [headerStep]
    rw [hlc, if_neg hnp]
  · unfold parse_tracklog_header
    rw [List.foldl_append, List.foldl_cons]
    rw [hget_fold_untouched ys _ k hns, hget_headerStep, hsv]

/-- C9, witness: the four rules of the header contract applied to
concrete lines: a recognized pilot line with free text and two colons, a
`HFDTE` date line, an unrecognized `HXXXX` line, and a repeated pilot
code where the later line's value is the one kept. -/
theorem C9_header_rules_witness :
    (hget (headerStep [] "HFPLTPILOT:free:John".toList) "pilot" =
        some "John".toList ∧
      (∃ p, pyStrip "HFPLTPILOT:free:John".toList =
        p ++ ':' :: lastSeg (pyStrip "HFPLTPILOT:free:John".toList)) ∧
      ':' ∉ lastSeg (pyStrip "HFPLTPILOT:free:John".toList))
    ∧ hget (headerStep [] "HFDTE230702".toList) "date" = some "230702".toList
    ∧ headerStep [("date", "230702".toList)] "HXXXXJUNK:1".toList =
        [("date", "230702".toList)]
    ∧ hget (parse_tracklog_header
        ["HFPLTPILOT:Jane".toList, "HFPLTPILOT:John".toList, "HFDTE230702".toList])
        "pilot" = some "John".toList := by
  refine ⟨?_, ?_, ?_, ?_⟩
  · have := C9_header_rules.1 [] "HFPLTPILOT:free:John".toList "pilot"
      (by rfl) (by decide) (by decide)
    exact ⟨by rw [this.1]; rfl, this.2.1, this.2.2⟩
  · exact C9_header_rules.2.1 [] "HFDTE230702".toList (by decide)
  · exact C9_header_rules.2.2.1 [("date", "230702".toList)] "HXXXXJUNK:1".toList
      (by decide) (by rfl)
  · exact C9_header_rules.2.2.2 ["HFPLTPILOT:Jane".toList] ["HFDTE230702".toList]
      "HFPLTPILOT:John".toList "pilot" "John".toList (by rfl) (by decide)

/-! ## Remote flight-list recognition (`is_date_string`, `FlightlogClient.flights`) -/

/-- One token of the source regex: a `\d` class or a literal character. -/
inductive RTok where
  | digit : RTok
  | lit : Char → RTok
  deriving DecidableEq

def tokMatch : RTok → Char → Bool
  | .digit, c => c.isDigit
  | .lit a, c => a == c

/-- `re.match`-style anchored prefix match of a token sequence: consumes
one character per token from the start of the string, succeeding with
the unconsumed rest (trailing characters are never examined). -/
def matchToks : List RTok → List Char → Option (List Char)
  | [], rest => some rest
  | _ :: _, [] => none
  | t :: ts, c :: cs => if tokMatch t c then matchToks ts cs else none

/-- The compiled pattern of the raw-string regex in `is_date_string`. -/
def dateRegex : List RTok :=
  [.digit, .digit, .digit, .digit, .lit '-', .digit, .digit, .lit '-', .digit, .digit,
   .lit ' ', .digit, .digit, .lit ':', .digit, .digit]

/-- `is_date_string`: `True if re.match(regex, input_string) else False`. -/
def is_date_string (s : List Char) : Bool := (matchToks dateRegex s).isSome

/-- The flight-list extraction of `FlightlogClient.flights`, abstracted
over the text of the page's table cells:
`[x.text.strip() for x in td if is_date_string(x.text.strip())]`. -/
def flightsExtract (cells : List (List Char)) : List (List Char) :=
  (cells.map pyStrip).filter is_date_string

/-- Spec-side shape (from the claim's words): exactly sixteen characters
of the form `dddd-dd-dd dd:dd`. -/
def shape16 (pre : List Char) : Bool :=
  match pre with
  | [y1, y2, y3, y4, s1, m1, m2, s2, d1, d2, s3, h1, h2, s4, n1, n2] =>
    y1.isDigit && y2.isDigit && y3.isDigit && y4.isDigit && s1 == '-' &&
    m1.isDigit && m2.isDigit && s2 == '-' && d1.isDigit && d2.isDigit &&
    s3 == ' ' && h1.isDigit && h2.isDigit && s4 == ':' && n1.isDigit && n2.isDigit
  | _ => false

theorem matchToks_some_split (ts : List RTok) :
    ∀ (cs r : List Char), matchToks ts cs = some r →
      ∃ pre, cs = pre ++ r ∧ matchToks ts pre = some [] ∧ pre.length = ts.length := by
  induction ts with
  | nil =>
    intro cs r hm
    simp only [matchToks] at hm
    exact ⟨[], by simp [Option.some.inj hm], rfl, rfl⟩
  | cons t ts ih =>
    intro cs r hm
    cases cs with
    | nil => exact absurd hm (by simp [matchToks])
    | cons c cs2 =>
      simp only [matchToks] at hm
      by_cases ht : tokMatch t c
      · rw [if_pos ht] at hm
        obtain ⟨pre, hpre, hmp, hlen⟩ := ih cs2 r hm
        refine ⟨c :: pre, by rw [List.cons_append, hpre], ?_, by simp [hlen]⟩
        simp only [matchToks]
        rw [if_pos ht]
        exact hmp
      · rw [if_neg ht] at hm
        exact Option.noConfusion hm

theorem matchToks_extend (ts : List RTok) :
    ∀ (pre rest : List Char), matchToks ts pre = some [] →
      matchToks ts (pre ++ rest) = some rest := by
  induction ts with
  | nil =>
    intro pre rest hm
    simp only [matchToks] at hm ⊢
    rw [Option.some.inj hm]
    rfl
  | cons t ts ih =>
    intro pre rest hm
    cases pre with
    | nil => exact absurd hm (by simp [matchToks])
    | cons c pre2 =>
      simp only [matchToks] at hm ⊢
      by_cases ht : tokMatch t c
      · rw [if_pos ht] at hm ⊢
        exact ih pre2 rest hm
      · rw [if_neg ht] at hm
        exact Option.noConfusion hm

theorem shape16_iff_match (pre : List Char) :
    shape16 pre = true ↔ matchToks dateRegex pre = some [] := by
  rcases pre with _ | ⟨c1, _ | ⟨c2, _ | ⟨c3, _ | ⟨c4, _ | ⟨c5, _ | ⟨c6, _ | ⟨c7, _ |
    ⟨c8, _ | ⟨c9, _ | ⟨c10, _ | ⟨c11, _ | ⟨c12, _ | ⟨c13, _ | ⟨c14, _ | ⟨c15, _ |
    ⟨c16, rest⟩⟩⟩⟩⟩⟩⟩⟩⟩⟩⟩⟩⟩⟩⟩⟩
  all_goals try (simp [shape16, dateRegex, matchToks, tokMatch]; done)
  rcases rest with _ | ⟨c17, rest2⟩
  · constructor
    · intro hsh
      simp only [shape16, Bool.and_eq_true, beq_iff_eq] at hsh
      simp [dateRegex, matchToks, tokMatch, hsh]
    · intro hm
      simp only [dateRegex, matchToks, tokMatch] at hm
      by_cases h1 : c1.isDigit = true
      swap
      · rw [if_neg h1] at hm; exact absurd hm (by simp)
      rw [if_pos h1] at hm
      by_cases h2 : c2.isDigit = true
      swap
      · rw [if_neg h2] at hm; exact absurd hm (by simp)
      rw [if_pos h2] at hm
      by_cases h3 : c3.isDigit = true
      swap
      · rw [if_neg h3] at hm; exact absurd hm (by simp)
      rw [if_pos h3] at hm
      by_cases h4 : c4.isDigit = true
      swap
      · rw [if_neg h4] at hm; exact absurd hm (by simp)
      rw [if_pos h4] at hm
      by_cases h5 : ('-' == c5) = true
      swap
      · rw [if_neg h5] at hm; exact absurd hm (by simp)
      rw [if_pos h5] at hm
      by_cases h6 : c6.isDigit = true
      swap
      · rw [if_neg h6] at hm; exact absurd hm (by simp)
      rw [if_pos h6] at hm
      by_cases h7 : c7.isDigit = true
      swap
      · rw [if_neg h7] at hm; exact absurd hm (by simp)
      rw [if_pos h7] at hm
      by_cases h8 : ('-' == c8) = true
      swap
      · rw [if_neg h8] at hm; exact absurd hm (by simp)
      rw [if_pos h8] at hm
      by_cases h9 : c9.isDigit = true
      swap
      · rw [if_neg h9] at hm; exact absurd hm (by simp)
      rw [if_pos h9] at hm
      by_cases h10 : c10.isDigit = true
      swap
      · rw [if_neg h10] at hm; exact absurd hm (by simp)
      rw [if_pos h10] at hm
      by_cases h11 : (' ' == c11) = true
      swap
      · rw [if_neg h11] at hm; exact absurd hm (by simp)
      rw [if_pos h11] at hm
      by_cases h12 : c12.isDigit = true
      swap
      · rw [if_neg h12] at hm; exact absurd hm (by simp)
      rw [if_pos h12] at hm
      by_cases h13 : c13.isDigit = true
      swap
      · rw [if_neg h13] at hm; exact absurd hm (by simp)
      rw [if_pos h13] at hm
      by_cases h14 : ((':') == c14) = true
      swap
      · rw [if_neg h14] at hm; exact absurd hm (by simp)
      rw [if_pos h14] at hm
      by_cases h15 : c15.isDigit = true
      swap
      · rw [if_neg h15] at hm; exact absurd hm (by simp)
      rw [if_pos h15] at hm
      by_cases h16 : c16.isDigit = true
      swap
      · rw [if_neg h16] at hm; exact absurd hm (by simp)
      simp [shape16, h1, h2, h3, h4, h6, h7, h9, h10, h12, h13, h15, h16,
        (beq_iff_eq.mp h5).symm, (beq_iff_eq.mp h8).symm,
        (beq_iff_eq.mp h11).symm, (beq_iff_eq.mp h14).symm]
  · simp [shape16, dateRegex, matchToks, tokMatch]

/-- C10: the remote-flight recognizer is anchored only at the start:
(1) `is_date_string` accepts a string exactly when its first sixteen
characters have the shape `dddd-dd-dd dd:dd`, regardless of what
follows; (2) consequently the flight-list extraction keeps every table
cell whose stripped text merely begins with that shape; and (3) a
witness string with trailing characters that is accepted although it is
not exactly a canonical sixteen-character date string. -/
theorem C10_anchored_match :
    (∀ s : List Char, is_date_string s = true ↔
      (16 ≤ s.length ∧ shape16 (s.take 16) = true))
    ∧ (∀ (cells : List (List Char)) (c : List Char), c ∈ cells →
        16 ≤ (pyStrip c).length → shape16 ((pyStrip c).take 16) = true →
        pyStrip c ∈ flightsExtract cells)
    ∧ (is_date_string "2023-07-02 12:30 (details)".toList = true ∧
        "2023-07-02 12:30 (details)".toList ≠ "2023-07-02 12:30".toList) := by
  have hmain : ∀ s : List Char, is_date_string s = true ↔
      (16 ≤ s.length ∧ shape16 (s.take 16) = true) := by
    intro s
    constructor
    · intro hm
      unfold is_date_string at hm
      rcases hr : matchToks dateRegex s with _ | r
      · rw [hr] at hm; exact absurd hm (by simp)
      · obtain ⟨pre, hpre, hmp, hlen⟩ := matchToks_some_split dateRegex s r hr
        have hl16 : pre.length = 16 := by rw [hlen]; rfl
        have htake : s.take 16 = pre := by
          rw [hpre, ← hl16, List.take_append_of_le_length (le_of_eq rfl), List.take_length]
        constructor
        · rw [hpre, List.length_append, hl16]
          omega
        · rw [htake, shape16_iff_match]
          exact hmp
    · rintro ⟨hlen, hsh⟩
      unfold is_date_string
      have hsplit : s = s.take 16 ++ s.drop 16 := (List.take_append_drop 16 s).symm
      rw [hsplit, matchToks_extend dateRegex (s.take 16) (s.drop 16)
        ((shape16_iff_match (s.take 16)).mp hsh)]
      rfl
  refine ⟨hmain, fun cells c hc hl16 hsh => ?_, by decide, by decide⟩
  unfold flightsExtract
  rw [List.mem_filter]
  exact ⟨List.mem_map_of_mem pyStrip hc, (hmain (pyStrip c)).mpr ⟨hl16, hsh⟩⟩

/-- C10, witness: the anchored-match theorem applied to a concrete
accepted string with trailing text and a concrete cell list containing
it: the recognizer accepts it and the extraction keeps it. -/
theorem C10_anchored_match_witness :
    is_date_string "2023-07-02 12:30 (details)".toList = true ∧
    pyStrip "2023-07-02 12:30 (details)".toList ∈
      flightsExtract ["Pilot".toList, "2023-07-02 12:30 (details)".toList] :=
  ⟨(C10_anchored_match.1 "2023-07-02 12:30 (details)".toList).mpr
      ⟨by decide, by decide⟩,
    C10_anchored_match.2.1 ["Pilot".toList, "2023-07-02 12:30 (details)".toList]
      "2023-07-02 12:30 (details)".toList (by simp) (by decide) (by decide)⟩

/-! ## Reconciliation loop (`main`) -/

/-- A tracklog file on disk: its name (paths are unique within the
scanned directory) and its text lines. -/
structure IgcFile where
  name : String
  lines : List (List Char)
  deriving DecidableEq, Repr

/-- The fields of a `Tracklog` object that the reconciliation loop uses:
the path (within one directory, the file name) and the derived date. -/
structure Tracklog where
  path : String
  date : DateTime
  deriving DecidableEq, Repr

instance : Inhabited Tracklog := ⟨⟨"", ⟨1, 1, 1, 0, 0, 0⟩⟩⟩

/-- `Tracklog.date_string` of a parsed tracklog. -/
def Tracklog.date_string (t : Tracklog) : String := DateTime.date_string t.date

/-- `Tracklog(f)`: the constructor derives the timestamp from the file,
propagating any exception raised while doing so. -/
def tracklogOf (f : IgcFile) : Except PyErr Tracklog :=
  match datetime_from_igc f.lines with
  | .ok d => .ok ⟨f.name, d⟩
  | .error e => .error e

/-- Construction of all `Tracklog` objects, in directory order, as the
generator inside `sorted(...)` performs it: the first exception aborts
the whole construction and no later file is examined. -/
def tracklogsOf : List IgcFile → Except PyErr (List Tracklog)
  | [] => .ok []
  | f :: fs =>
    match tracklogOf f with
    | .error e => .error e
    | .ok t =>
      match tracklogsOf fs with
      | .error e => .error e
      | .ok ts => .ok (t :: ts)

/-- The comparison key of `sorted(..., key=lambda x: x.path)`. -/
def tlLe (a b : Tracklog) : Prop := a.path ≤ b.path

instance : DecidableRel tlLe := fun a b =>
  decidable_of_iff (a.path.toList ≤ b.path.toList) (String.le_iff_toList_le).symm

instance : IsTotal Tracklog tlLe := ⟨fun a b => le_total a.path b.path⟩

instance : IsTrans Tracklog tlLe := ⟨fun _ _ _ h1 h2 => le_trans h1 h2⟩

/-- One reconciliation cycle of `main`'s `while True` loop over an
already-scanned directory: build `Tracklog` objects for the files whose
name is not in the skip list (an exception in a constructor aborts the
cycle), sort them by path, submit exactly those whose date string is not
in the remote flight list, and append every processed file's name to the
skip list regardless of the branch taken.  Returns the submitted
worklist (in submission order) and the new skip list.
(`List.insertionSort` is a stable sort, hence extensionally equal to
Python's stable `sorted` for this total comparison key.) -/
def cycle (files : List IgcFile) (skip flights : List String) :
    Except PyErr (List Tracklog × List String) :=
  match tracklogsOf (files.filter (fun f => !decide (f.name ∈ skip))) with
  | .error e => .error e
  | .ok tls =>
    let sortedTls := List.insertionSort tlLe tls
    .ok (sortedTls.filter (fun t => !decide (t.date_string ∈ flights)),
      skip ++ sortedTls.map Tracklog.path)

theorem tracklogOf_path {f : IgcFile} {t : Tracklog} (h : tracklogOf f = .ok t) :
    t.path = f.name := by
  unfold tracklogOf at h
  rcases hd : datetime_from_igc f.lines with e | d
  · rw [hd] at h; exact absurd h (by simp)
  · rw [hd] at h
    rw [← Except.ok.inj h]

/-- The value delivered by a successful `Except` computation (used to
express the result of a successful batch as a `map`). -/
def exOk {α : Type} [Inhabited α] (x : Except PyErr α) : α :=
  match x with
  | .ok v => v
  | .error _ => default

theorem tracklogsOf_ok_eq_map {fs : List IgcFile} {ts : List Tracklog}
    (h : tracklogsOf fs = .ok ts) :
    ts = fs.map (fun f => exOk (tracklogOf f)) ∧
      ∀ f ∈ fs, ∃ t, tracklogOf f = .ok t := by
  induction fs generalizing ts with
  | nil =>
    simp only [tracklogsOf] at h
    rw [← Except.ok.inj h]
    exact ⟨rfl, by simp⟩
  | cons f fs ih =>
    simp only [tracklogsOf] at h
    rcases h1 : tracklogOf f with e | t
    · rw [h1] at h; exact absurd h (by simp)
    · rw [h1] at h
      rcases h2 : tracklogsOf fs with e | ts2
      · rw [h2] at h; exact absurd h (by simp)
      · rw [h2] at h
        obtain ⟨hmap, hall⟩ := ih h2
        refine ⟨?_, fun g hg => ?_⟩
        · rw [← Except.ok.inj h, List.map_cons, ← hmap]
          have : exOk (tracklogOf f) = t := by rw [h1]; rfl
          rw [this]
        · rcases List.mem_cons.mp hg with hq | hq
          · exact ⟨t, hq ▸ h1⟩
          · exact hall g hq

theorem tracklogsOf_mem_ok {fs : List IgcFile} {ts : List Tracklog} {f : IgcFile}
    (h : tracklogsOf fs = .ok ts) (hf : f ∈ fs) :
    ∃ t, tracklogOf f = .ok t ∧ t ∈ ts := by
  obtain ⟨hmap, hall⟩ := tracklogsOf_ok_eq_map h
  obtain ⟨t, ht⟩ := hall f hf
  refine ⟨t, ht, ?_⟩
  rw [hmap]
  have : t = exOk (tracklogOf f) := by rw [ht]; rfl
  rw [this]
  exact List.mem_map_of_mem _ hf

theorem tracklogsOf_error_of_mem {fs : List IgcFile} {f : IgcFile} {e : PyErr}
    (hf : f ∈ fs) (he : tracklogOf f = .error e) :
    ∃ e2, tracklogsOf fs = .error e2 := by
  induction fs with
  | nil => exact absurd hf (by simp)
  | cons g fs ih =>
    simp only [tracklogsOf]
    rcases h1 : tracklogOf g with e1 | t
    · exact ⟨e1, rfl⟩
    · rcases List.mem_cons.mp hf with hq | hq
      · rw [hq] at he
        rw [he] at h1
        exact absurd h1 (by simp)
      · obtain ⟨e2, he2⟩ := ih hq
        rw [he2]
        exact ⟨e2, rfl⟩

theorem tracklogsOf_paths {fs : List IgcFile} {ts : List Tracklog}
    (h : tracklogsOf fs = .ok ts) : ts.map Tracklog.path = fs.map IgcFile.name := by
  obtain ⟨hmap, hall⟩ := tracklogsOf_ok_eq_map h
  rw [hmap, List.map_map]
  refine List.map_congr_left (fun f hf => ?_)
  obtain ⟨t, ht⟩ := hall f hf
  show (exOk (tracklogOf f)).path = f.name
  rw [ht]
  exact tracklogOf_path ht

/-- C7: SkipSet idempotence.  If a reconciliation cycle over a local file
set succeeds with worklist `w` and new skip list `s1` (which contains the
name of every processed file, submitted or not), then a second cycle over
the same files with skip list `s1` and the same remote flight set yields
an empty worklist and leaves the skip list unchanged. -/
theorem C7_skipset_idempotent (files : List IgcFile) (skip flights : List String)
    (w : List Tracklog) (s1 : List String)
    (h : cycle files skip flights = .ok (w, s1)) :
    cycle files s1 flights = .ok ([], s1) := by
  unfold cycle at h ⊢
  rcases hm : tracklogsOf (files.filter (fun f => !decide (f.name ∈ skip))) with e | tls
  · rw [hm] at h; exact absurd h (by simp)
  · rw [hm] at h
    simp only [Except.ok.injEq, Prod.mk.injEq] at h
    obtain ⟨hw, hs1⟩ := h
    have hnil : files.filter (fun f => !decide (f.name ∈ s1)) = [] := by
      rw [List.filter_eq_nil_iff]
      intro f hf
      simp only [Bool.not_eq_true', decide_eq_false_iff_not, not_not]
      by_cases hsk : f.name ∈ skip
      · rw [← hs1]; exact List.mem_append_left _ hsk
      · have hfc : f ∈ files.filter (fun f => !decide (f.name ∈ skip)) := by
          rw [List.mem_filter]
          exact ⟨hf, by simp [hsk]⟩
        obtain ⟨t, ht, htls⟩ := tracklogsOf_mem_ok hm hfc
        have hts : t ∈ List.insertionSort tlLe tls :=
          ((List.perm_insertionSort tlLe tls).mem_iff).mpr htls
        have : f.name ∈ (List.insertionSort tlLe tls).map Tracklog.path := by
          rw [← tracklogOf_path ht]
          exact List.mem_map_of_mem _ hts
        rw [← hs1]
        exact List.mem_append_right _ this
    rw [hnil]
    simp only [tracklogsOf]
    have hsortnil : List.insertionSort tlLe [] = [] := rfl
    rw [hsortnil]
    simp [← hs1]

/-- A one-file directory on which a cycle succeeds (used as concrete
input by several witnesses). -/
def fileA : IgcFile := ⟨"A.IGC", scenarioA⟩

/-- C7, witness: the idempotence theorem applied to a concrete one-file
directory: the first cycle submits the file and records it in the skip
list; the second cycle yields an empty worklist. -/
theorem C7_skipset_idempotent_witness :
    cycle [fileA] ["A.IGC"] [] = .ok ([], ["A.IGC"]) :=
  C7_skipset_idempotent [fileA] [] []
    [⟨"A.IGC", ⟨2002, 7, 23, 12, 30, 45⟩⟩] ["A.IGC"] (by rfl)

theorem cycle_ok_decomp (files : List IgcFile) (skip flights : List String)
    (w : List Tracklog) (s1 : List String)
    (h : cycle files skip flights = .ok (w, s1)) :
    w = (List.insertionSort tlLe ((files.filter (fun f => !decide (f.name ∈ skip))).map
          (fun f => exOk (tracklogOf f)))).filter
        (fun t => !decide (t.date_string ∈ flights)) ∧
      ∀ f ∈ files.filter (fun f => !decide (f.name ∈ skip)), ∃ t, tracklogOf f = .ok t := by
  unfold cycle at h
  rcases hm : tracklogsOf (files.filter (fun f => !decide (f.name ∈ skip))) with e | tls
  · rw [hm] at h; exact absurd h (by simp)
  · rw [hm] at h
    simp only [Except.ok.injEq, Prod.mk.injEq] at h
    obtain ⟨hmap, hall⟩ := tracklogsOf_ok_eq_map hm
    refine ⟨?_, hall⟩
    rw [← h.1, ← hmap]

theorem cycle_ok_mem (files : List IgcFile) (skip flights : List String)
    (w : List Tracklog) (s1 : List String)
    (h : cycle files skip flights = .ok (w, s1)) (t : Tracklog) :
    t ∈ w ↔ ∃ f ∈ files, f.name ∉ skip ∧ tracklogOf f = .ok t ∧
      t.date_string ∉ flights := by
  obtain ⟨hw, hall⟩ := cycle_ok_decomp files skip flights w s1 h
  constructor
  · intro ht
    rw [hw, List.mem_filter] at ht
    obtain ⟨hts, hdate⟩ := ht
    have htls : t ∈ (files.filter (fun f => !decide (f.name ∈ skip))).map
        (fun f => exOk (tracklogOf f)) :=
      ((List.perm_insertionSort tlLe _).mem_iff).mp hts
    obtain ⟨f, hfc, hft⟩ := List.mem_map.mp htls
    obtain ⟨t2, ht2⟩ := hall f hfc
    have ht2t : tracklogOf f = .ok t := by
      rw [ht2]
      have : t2 = exOk (tracklogOf f) := by rw [ht2]; rfl
      rw [← hft, this]
    rw [List.mem_filter] at hfc
    refine ⟨f, hfc.1, ?_, ht2t, ?_⟩
    · have h2 := hfc.2
      simp only [Bool.not_eq_true', decide_eq_false_iff_not] at h2
      exact h2
    · simp only [Bool.not_eq_true', decide_eq_false_iff_not] at hdate
      exact hdate
  · rintro ⟨f, hf, hskip, hok, hdate⟩
    have hfc : f ∈ files.filter (fun f => !decide (f.name ∈ skip)) := by
      rw [List.mem_filter]
      exact ⟨hf, by simp [hskip]⟩
    have htm : t ∈ (files.filter (fun f => !decide (f.name ∈ skip))).map
        (fun f => exOk (tracklogOf f)) := by
      have he : exOk (tracklogOf f) = t := by rw [hok]; rfl
      rw [← he]
      exact List.mem_map_of_mem _ hfc
    rw [hw, List.mem_filter]
    exact ⟨((List.perm_insertionSort tlLe _).mem_iff).mpr htm, by simp [hdate]⟩

theorem cycle_ok_pairwise (files : List IgcFile) (skip flights : List String)
    (hnd : (files.map IgcFile.name).Nodup) (w : List Tracklog) (s1 : List String)
    (h : cycle files skip flights = .ok (w, s1)) :
    w.Pairwise (fun a b => a.path < b.path) := by
  obtain ⟨hw, hall⟩ := cycle_ok_decomp files skip flights w s1 h
  have hsorted : (List.insertionSort tlLe ((files.filter
      (fun f => !decide (f.name ∈ skip))).map (fun f => exOk (tracklogOf f)))).Pairwise tlLe :=
    List.sorted_insertionSort tlLe _
  have hle : w.Pairwise tlLe := by
    rw [hw]
    exact List.Pairwise.sublist (List.filter_sublist _) hsorted
  have hpaths : (((files.filter (fun f => !decide (f.name ∈ skip))).map
      (fun f => exOk (tracklogOf f))).map Tracklog.path).Nodup := by
    have h1 : ((files.filter (fun f => !decide (f.name ∈ skip))).map
        (fun f => exOk (tracklogOf f))).map Tracklog.path =
        (files.filter (fun f => !decide (f.name ∈ skip))).map IgcFile.name := by
      rw [List.map_map]
      refine List.map_congr_left (fun f hf => ?_)
      obtain ⟨t, ht⟩ := hall f hf
      show (exOk (tracklogOf f)).path = f.name
      have he : exOk (tracklogOf f) = t := by rw [ht]; rfl
      rw [he]
      exact tracklogOf_path ht
    rw [h1]
    exact ((List.filter_sublist files).map IgcFile.name).nodup hnd
  have hwpaths : (w.map Tracklog.path).Nodup := by
    rw [hw]
    have hperm : ((List.insertionSort tlLe ((files.filter
        (fun f => !decide (f.name ∈ skip))).map (fun f => exOk (tracklogOf f)))).map
        Tracklog.path).Nodup :=
      ((List.perm_insertionSort tlLe _).map Tracklog.path).nodup_iff.mpr hpaths
    exact ((List.filter_sublist _).map Tracklog.path).nodup hperm
  have hpne : w.Pairwise (fun a b => a.path ≠ b.path) := List.pairwise_map.mp hwpaths
  exact (hle.and hpne).imp (fun hab => lt_of_le_of_ne hab.1 hab.2)

/-- C8: for distinct file paths, a successful reconciliation cycle's
worklist (1) is strictly ascending by path, (2) contains exactly the
descriptors of non-skipped local files whose canonical date string is
not in the remote flight set (compared by string equality), and (3) is
the same for any reordering of the directory scan. -/
theorem C8_worklist (files : List IgcFile) (skip flights : List String)
    (hnd : (files.map IgcFile.name).Nodup) (w : List Tracklog) (s1 : List String)
    (h : cycle files skip flights = .ok (w, s1)) :
    w.Pairwise (fun a b => a.path < b.path)
    ∧ (∀ t : Tracklog, t ∈ w ↔ ∃ f ∈ files, f.name ∉ skip ∧
        tracklogOf f = .ok t ∧ t.date_string ∉ flights)
    ∧ (∀ (files2 : List IgcFile) (w2 : List Tracklog) (s2 : List String),
        files2.Perm files → cycle files2 skip flights = .ok (w2, s2) → w2 = w) := by
  refine ⟨cycle_ok_pairwise files skip flights hnd w s1 h,
    fun t => cycle_ok_mem files skip flights w s1 h t,
    fun files2 w2 s2 hperm h2 => ?_⟩
  have hnd2 : (files2.map IgcFile.name).Nodup :=
    ((hperm.map IgcFile.name).nodup_iff).mpr hnd
  have hp2 := cycle_ok_pairwise files2 skip flights hnd2 w2 s2 h2
  have hp1 := cycle_ok_pairwise files skip flights hnd w s1 h
  obtain ⟨hw, _⟩ := cycle_ok_decomp files skip flights w s1 h
  obtain ⟨hw2, _⟩ := cycle_ok_decomp files2 skip flights w2 s2 h2
  have hpermw : w2.Perm w := by
    rw [hw, hw2]
    refine List.Perm.filter _ ?_
    have hctls : ((files2.filter (fun f => !decide (f.name ∈ skip))).map
        (fun f => exOk (tracklogOf f))).Perm
        ((files.filter (fun f => !decide (f.name ∈ skip))).map
          (fun f => exOk (tracklogOf f))) :=
      (hperm.filter _).map _
    exact ((List.perm_insertionSort tlLe _).trans hctls).trans
      (List.perm_insertionSort tlLe _).symm
  haveI : IsAntisymm Tracklog (fun a b => a.path < b.path) :=
    ⟨fun a b h1 h2 => absurd h2 (lt_asymm h1)⟩
  exact List.eq_of_perm_of_sorted hpermw hp2 hp1

/-- The file of specification Scenario C's second descriptor: date
2023-07-03, first fix 09:15, no offset header. -/
def scenarioB : List (List Char) :=
  ["HFDTE030723".toList, "B0915000000000N00000000EA0010000100".toList]

def fileB : IgcFile := ⟨"B.IGC", scenarioB⟩

def tlB : Tracklog := ⟨"B.IGC", ⟨2023, 7, 3, 9, 15, 0⟩⟩

/-- C8, witness: a two-file directory given in non-alphabetical scan
order, with the first file's date string already registered remotely.
The theorem applied there: the worklist is strictly ascending, contains
the 2023-07-03 descriptor, and reordering the scan yields the same
worklist. -/
theorem C8_worklist_witness :
    ([tlB] : List Tracklog).Pairwise (fun a b => a.path < b.path)
    ∧ tlB ∈ ([tlB] : List Tracklog)
    ∧ ([tlB] : List Tracklog) = [tlB] := by
  have h : cycle [fileB, fileA] [] ["2002-07-23 12:30"] =
      .ok ([tlB], ["A.IGC", "B.IGC"]) := by rfl
  have h2 : cycle [fileA, fileB] [] ["2002-07-23 12:30"] =
      .ok ([tlB], ["A.IGC", "B.IGC"]) := by rfl
  have hmain := C8_worklist [fileB, fileA] [] ["2002-07-23 12:30"] (by decide)
    [tlB] ["A.IGC", "B.IGC"] h
  refine ⟨hmain.1, ?_, ?_⟩
  · exact (hmain.2.1 tlB).mpr ⟨fileB, by simp, by simp, by rfl, by decide⟩
  · exact hmain.2.2 [fileA, fileB] [tlB] ["A.IGC", "B.IGC"] (by decide) h2

/-! ## C4: files from which no timestamp can be derived -/

/-- A line appearing before the first position record that carries no
date header: it starts with neither `B` nor `HFDTE`, and if it is a
time-zone header its offset field parses. -/
def preBLine (line : List Char) : Prop :=
  ¬ hfdteP.isPrefixOf (pyStrip line) ∧ (pyStrip line).take 1 ≠ ['B'] ∧
  (hftznP.isPrefixOf (pyStrip line) → ∃ t, pyInt ((pyStrip line).drop 14) = .ok t)

/-- A line that is not a position record and whose header fields (if it
is a date or time-zone header) parse. -/
def noBLine (line : List Char) : Prop :=
  (pyStrip line).take 1 ≠ ['B'] ∧
  (hfdteP.isPrefixOf (pyStrip line) →
    (∃ x, pyInt (pySlice (pyStrip line) 5 7) = .ok x) ∧
    (∃ x, pyInt (pySlice (pyStrip line) 7 9) = .ok x) ∧
    (∃ x, pyInt ((pyStrip line).drop 9) = .ok x)) ∧
  (hftznP.isPrefixOf (pyStrip line) → ∃ t, pyInt ((pyStrip line).drop 14) = .ok t)

/-- One unfolding step of the line loop. -/
theorem scanIGC_cons (st : ScanState) (line : List Char) (rest : List (List Char)) :
    scanIGC st (line :: rest) =
      if hfdteP.isPrefixOf (pyStrip line) then
        match pyInt (pySlice (pyStrip line) 5 7), pyInt (pySlice (pyStrip line) 7 9),
            pyInt ((pyStrip line).drop 9) with
        | .ok d, .ok m, .ok y => scanIGC ⟨some (d, m, y + 2000), st.tz⟩ rest
        | .error e, _, _ => .error e
        | .ok _, .error e, _ => .error e
        | .ok _, .ok _, .error e => .error e
      else if hftznP.isPrefixOf (pyStrip line) then
        match pyInt ((pyStrip line).drop 14) with
        | .ok t => scanIGC ⟨st.dmy, t⟩ rest
        | .error e => .error e
      else if (pyStrip line).take 1 = ['B'] then
        match pyInt (pySlice (pyStrip line) 1 3), pyInt (pySlice (pyStrip line) 3 5),
            pyInt (pySlice (pyStrip line) 5 7) with
        | .ok h, .ok mi, .ok s => .ok (st, some (h + st.tz, mi, s))
        | .error e, _, _ => .error e
        | .ok _, .error e, _ => .error e
        | .ok _, .ok _, .error e => .error e
      else scanIGC st rest := rfl

theorem take1_of_isPrefixOf {p l : List Char} (hp : p.isPrefixOf l) (hlen : 1 ≤ p.length) :
    l.take 1 = p.take 1 := by
  obtain ⟨t, ht⟩ := List.isPrefixOf_iff_prefix.mp hp
  rw [← ht, List.take_append_of_le_length hlen]

/-- Scanning lines with no date header and no position record leaves the
date variables unbound and only possibly rebinds the offset. -/
theorem scan_preB (ls : List (List Char)) :
    ∀ (st : ScanState) (rest : List (List Char)), (∀ l ∈ ls, preBLine l) →
      ∃ tz, scanIGC st (ls ++ rest) = scanIGC ⟨st.dmy, tz⟩ rest := by
  induction ls with
  | nil =>
    intro st rest _
    exact ⟨st.tz, rfl⟩
  | cons l ls ih =>
    intro st rest hpre
    obtain ⟨h1, h2, h3⟩ := hpre l (List.mem_cons_self _ _)
    have hrest : ∀ x ∈ ls, preBLine x := fun x hx => hpre x (List.mem_cons_of_mem _ hx)
    rw [List.cons_append, scanIGC_cons, if_neg h1]
    by_cases hz : hftznP.isPrefixOf (pyStrip l)
    · obtain ⟨t, ht⟩ := h3 hz
      rw [if_pos hz, ht]
      obtain ⟨tz, htz⟩ := ih ⟨st.dmy, t⟩ rest hrest
      exact ⟨tz, htz⟩
    · rw [if_neg hz, if_neg h2]
      exact ih st rest hrest

/-- Scanning lines that contain no position record ends the loop without
binding hour/minute/second; the date variables are bound as soon as some
line is a date header. -/
theorem scan_noB (ls : List (List Char)) :
    ∀ st : ScanState, (∀ l ∈ ls, noBLine l) →
      ∃ st2 : ScanState, scanIGC st ls = .ok (st2, none) ∧
        (st.dmy ≠ none → st2.dmy ≠ none) ∧
        ((∃ l ∈ ls, hfdteP.isPrefixOf (pyStrip l)) → st2.dmy ≠ none) := by
  induction ls with
  | nil =>
    intro st _
    refine ⟨st, rfl, fun h => h, ?_⟩
    rintro ⟨l, hl, _⟩
    exact absurd hl (by simp)
  | cons l ls ih =>
    intro st hno
    obtain ⟨h1, h2, h3⟩ := hno l (List.mem_cons_self _ _)
    have hrest : ∀ x ∈ ls, noBLine x := fun x hx => hno x (List.mem_cons_of_mem _ hx)
    by_cases hd : hfdteP.isPrefixOf (pyStrip l)
    · obtain ⟨⟨d, hdx⟩, ⟨m, hmx⟩, ⟨y, hyx⟩⟩ := h2 hd
      obtain ⟨st2, hscan, hmono, _⟩ := ih ⟨some (d, m, y + 2000), st.tz⟩ hrest
      have hsome : st2.dmy ≠ none := hmono (by simp)
      refine ⟨st2, ?_, fun _ => hsome, fun _ => hsome⟩
      rw [scanIGC_cons, if_pos hd, hdx, hmx, hyx]
      exact hscan
    · by_cases hz : hftznP.isPrefixOf (pyStrip l)
      · obtain ⟨t, htx⟩ := h3 hz
        obtain ⟨st2, hscan, hmono, hex⟩ := ih ⟨st.dmy, t⟩ hrest
        refine ⟨st2, ?_, fun hdm => hmono hdm, ?_⟩
        · rw [scanIGC_cons, if_neg hd, if_pos hz, htx]
          exact hscan
        · rintro ⟨l2, hl2, hp2⟩
          rcases List.mem_cons.mp hl2 with hq | hq
          · exact absurd (hq ▸ hp2) hd
          · exact hex ⟨l2, hq, hp2⟩
      · obtain ⟨st2, hscan, hmono, hex⟩ := ih st hrest
        refine ⟨st2, ?_, hmono, ?_⟩
        · rw [scanIGC_cons, if_neg hd, if_neg hz, if_neg h1]
          exact hscan
        · rintro ⟨l2, hl2, hp2⟩
          rcases List.mem_cons.mp hl2 with hq | hq
          · exact absurd (hq ▸ hp2) hd
          · exact hex ⟨l2, hq, hp2⟩

theorem igc_missing_date (pre post : List (List Char)) (b : List Char)
    (hpre : ∀ l ∈ pre, preBLine l) (hb : (pyStrip b).take 1 = ['B'])
    (hH : ∃ x, pyInt (pySlice (pyStrip b) 1 3) = .ok x)
    (hM : ∃ x, pyInt (pySlice (pyStrip b) 3 5) = .ok x)
    (hS : ∃ x, pyInt (pySlice (pyStrip b) 5 7) = .ok x) :
    datetime_from_igc (pre ++ b :: post) = .error (.unboundLocal "year") := by
  obtain ⟨hh, hhx⟩ := hH
  obtain ⟨hm, hmx⟩ := hM
  obtain ⟨hs, hsx⟩ := hS
  have hbH : ¬ hfdteP.isPrefixOf (pyStrip b) := by
    intro hp
    have h1 := take1_of_isPrefixOf hp (by decide)
    rw [hb] at h1
    exact absurd h1 (by decide)
  have hbZ : ¬ hftznP.isPrefixOf (pyStrip b) := by
    intro hp
    have h1 := take1_of_isPrefixOf hp (by decide)
    rw [hb] at h1
    exact absurd h1 (by decide)
  unfold datetime_from_igc
  obtain ⟨tz, htz⟩ := scan_preB pre ⟨none, 0⟩ (b :: post) hpre
  rw [htz, scanIGC_cons, if_neg hbH, if_neg hbZ, if_pos hb, hhx, hmx, hsx]

theorem igc_no_position (lines : List (List Char))
    (hall : ∀ l ∈ lines, noBLine l)
    (hdate : ∃ l ∈ lines, hfdteP.isPrefixOf (pyStrip l)) :
    datetime_from_igc lines = .error (.unboundLocal "hour") := by
  unfold datetime_from_igc
  obtain ⟨st2, hscan, _, hex⟩ := scan_noB lines ⟨none, 0⟩ hall
  obtain ⟨dmy2, tz2⟩ := st2
  rw [hscan]
  rcases dmy2 with _ | v
  · exact absurd rfl (hex hdate)
  · obtain ⟨d, m, y⟩ := v
    rfl

theorem cycle_aborts (files : List IgcFile) (skip flights : List String)
    (f : IgcFile) (e : PyErr) (hf : f ∈ files) (hskip : f.name ∉ skip)
    (he : tracklogOf f = .error e) :
    ∃ e2, cycle files skip flights = .error e2 := by
  have hfc : f ∈ files.filter (fun f => !decide (f.name ∈ skip)) := by
    rw [List.mem_filter]
    exact ⟨hf, by simp [hskip]⟩
  obtain ⟨e2, he2⟩ := tracklogsOf_error_of_mem hfc he
  unfold cycle
  rw [he2]
  exact ⟨e2, rfl⟩

/-- C4 (amended): (1) a file whose first position record is preceded by
no date header makes `datetime_from_igc` fail with an unbound-local
error on `year`; (2) a file with header lines (at least one of them a
date header) but no position record at all fails with an unbound-local
error on `hour` — two distinguishable failures, but not conditions named
MissingDate/NoPositionRecord; and (3) such an exception propagates out
of the batch construction: the cycle returns an error instead of
reporting the file and continuing with the rest. -/
theorem C4_missing_data :
    (∀ (pre post : List (List Char)) (b : List Char), (∀ l ∈ pre, preBLine l) →
      (pyStrip b).take 1 = ['B'] →
      (∃ x, pyInt (pySlice (pyStrip b) 1 3) = .ok x) →
      (∃ x, pyInt (pySlice (pyStrip b) 3 5) = .ok x) →
      (∃ x, pyInt (pySlice (pyStrip b) 5 7) = .ok x) →
      datetime_from_igc (pre ++ b :: post) = .error (.unboundLocal "year"))
    ∧ (∀ lines : List (List Char), (∀ l ∈ lines, noBLine l) →
        (∃ l ∈ lines, hfdteP.isPrefixOf (pyStrip l)) →
        datetime_from_igc lines = .error (.unboundLocal "hour"))
    ∧ (∀ (files : List IgcFile) (skip flights : List String) (f : IgcFile) (e : PyErr),
        f ∈ files → f.name ∉ skip → tracklogOf f = .error e →
        ∃ e2, cycle files skip flights = .error e2) :=
  ⟨igc_missing_date, igc_no_position, cycle_aborts⟩

/-- A file with a position record but no date header. -/
def fileNoDate : IgcFile := ⟨"B1.IGC", ["B1030450000000N00000000EA0010000100".toList]⟩

/-- C4, counterexample: a batch of two files whose first file has no date
header.  The cycle does not report the file and continue with the second
one — it aborts with the propagated `UnboundLocalError` (not a condition
named MissingDate), and the second file is never processed. -/
theorem C4_counterexample :
    cycle [fileNoDate, fileA] [] [] = .error (.unboundLocal "year") := by
  rfl

/-- C4, witness for the amended theorem: a time-zone header followed by a
position record yields the `year` failure; a lone date header yields the
`hour` failure; a directory containing the first file aborts the cycle. -/
theorem C4_missing_data_witness :
    datetime_from_igc ["HFTZNTIMEZONE+2".toList,
      "B1030450000000N00000000EA0010000100".toList] = .error (.unboundLocal "year")
    ∧ datetime_from_igc ["HFDTE230702".toList] = .error (.unboundLocal "hour")
    ∧ ∃ e2, cycle [fileNoDate] [] [] = .error e2 :=
  ⟨C4_missing_data.1 ["HFTZNTIMEZONE+2".toList] []
      "B1030450000000N00000000EA0010000100".toList
      (by
        intro l hl
        rw [List.mem_singleton] at hl
        subst hl
        exact ⟨by decide, by decide, fun _ => ⟨2, rfl⟩⟩)
      (by decide) ⟨10, rfl⟩ ⟨30, rfl⟩ ⟨45, rfl⟩,
    C4_missing_data.2.1 ["HFDTE230702".toList]
      (by
        intro l hl
        rw [List.mem_singleton] at hl
        subst hl
        exact ⟨by decide, fun _ => ⟨⟨23, rfl⟩, ⟨7, rfl⟩, ⟨2, rfl⟩⟩,
          fun hz => absurd hz (by decide)⟩)
      ⟨"HFDTE230702".toList, by simp, by decide⟩,
    C4_missing_data.2.2 [fileNoDate] [] [] fileNoDate (.unboundLocal "year")
      (by simp) (by simp) (by rfl)⟩

end FlightlogSubmit
